import Mathlib

/-!
Verification development for the C-LZ77-Compressor repository.

The repository ships only the interface header (src/include/lz77.h): every
function body (Encoder::Encode, Encoder::MatchPattern, Encoder::CompressToFile,
Decoder::DecompressLZ77Code, IntToBinString, BinStringToInt, the Huffman coder)
is declared there but not defined under src/.  All operational definitions
below are therefore modelled from the specification (spec.md), faithful to its
words, and keep the header's names where Lean allows.

Modelling conventions:
* bytes and symbols are natural numbers (the C++ code reads bytes into
  std::string cells); a byte sequence is a List Nat with entries < 256;
* bit strings are List Bool, big-endian as required by the spec's Bit Codec;
* fallible operations return Except or Option;
* the sliding-window search of the Match Engine is modelled by its external
  match-selection contract stated in the spec: longest match over the live
  window wins, ties broken by smallest offset;
* spec open questions are resolved the way the spec instructs: the header
  carries the triple count, and symbol / code-length header fields are 16 bits
  wide so they cover the full offset range (spec section 9 requires fields
  wide enough for offsets up to 2048);
* the look-ahead candidate used for matching is capped at one byte less than
  the remaining input, so that the "next literal after the matched run"
  demanded by the spec's emission rule always exists.
-/

set_option maxHeartbeats 1000000

namespace LZ77

/-- Modelled from the spec: error raised by the Bit Codec when a value does
not fit the declared bit width (the body of IntToBinString is missing from
src/). -/
inductive BitCodecError where
  | RangeError
deriving DecidableEq

/-- Big-endian bit string of a natural number in a fixed width.
Helper for IntToBinString, modelled from the spec's Bit Codec. -/
def natToBits : Nat → Nat → List Bool
  | 0, _ => []
  | w + 1, v => natToBits w (v / 2) ++ [decide (v % 2 = 1)]

/-- Modelled from the spec: BinStringToInt (body missing from src/), the
inverse of the Bit Codec encoder; the bit string's length is the width. -/
def BinStringToInt (bits : List Bool) : Nat :=
  bits.foldl (fun acc b => 2 * acc + (if b then 1 else 0)) 0

/-- Modelled from the spec: IntToBinString (body missing from src/); fails
with RangeError if the value does not fit, as an unsigned big-endian number,
in the given number of bits. -/
def IntToBinString (value : Int) (string_size : Nat) : Except BitCodecError (List Bool) :=
  if 0 ≤ value ∧ value < (2 : Int) ^ string_size then
    Except.ok (natToBits string_size value.toNat)
  else
    Except.error BitCodecError.RangeError

/-- The LZ77 emission unit, from the header's triple_struct; the codeword is
one literal byte. -/
structure triple_struct where
  offset : Nat
  length : Nat
  codeword : Nat
deriving DecidableEq

/-- Search buffer size, from the header: 2048. -/
def search_buffer_size_ : Nat := 2048

/-- Look-ahead buffer size, from the header: 255. -/
def look_ahead_buffer_size_ : Nat := 255

/-- Length of the longest common prefix of two byte lists. -/
def lcp : List Nat → List Nat → Nat
  | a :: as, b :: bs => if a = b then lcp as bs + 1 else 0
  | _, _ => 0

/-- Modelled from the spec: the look-ahead buffer at a position, the upcoming
unprocessed input used as match candidate; capped one short of the remaining
input so the literal after a matched run always exists. -/
def look_ahead_buffer_ (input : List Nat) (pos : Nat) : List Nat :=
  List.take (min look_ahead_buffer_size_ (input.length - pos - 1)) (List.drop pos input)

/-- Modelled from the spec: Encoder::MatchPattern (body missing from src/).
Returns (offset, length) of the longest match between the look-ahead buffer
and the search buffer (positions at most 2048 back); longest match wins, ties
broken by smallest offset. -/
def MatchPattern (input : List Nat) (pos : Nat) : Nat × Nat :=
  (List.range' 1 (min pos search_buffer_size_)).foldl
    (fun best off =>
      let l := lcp (List.drop (pos - off) input) (look_ahead_buffer_ input pos)
      if best.2 < l then (off, l) else best)
    (0, 0)

/-- The common-prefix length the Match Engine sees at one window offset. -/
def matchLenAt (input : List Nat) (pos off : Nat) : Nat :=
  lcp (List.drop (pos - off) input) (look_ahead_buffer_ input pos)

/-- One step of the match search fold: a strictly longer match replaces the
best one, so the smallest offset wins ties. -/
def matchStep (input : List Nat) (pos : Nat) (best : Nat × Nat) (off : Nat) : Nat × Nat :=
  if best.2 < matchLenAt input pos off then (off, matchLenAt input pos off) else best

/-- Invariant of the match search: the best pair is the no-match sentinel or
a genuine in-window match. -/
def matchInv (input : List Nat) (pos k : Nat) (best : Nat × Nat) : Prop :=
  best = (0, 0) ∨
    (1 ≤ best.1 ∧ best.1 ≤ k ∧ 1 ≤ best.2 ∧ best.2 = matchLenAt input pos best.1)

/-- Modelled from the spec: the Substring Index (the header's
search_buffer_tree_), one suffix entry per live window position. -/
def search_buffer_tree_ (input : List Nat) (pos : Nat) : List (List Nat) :=
  (List.range' 1 (min pos search_buffer_size_)).map (fun off => List.drop (pos - off) input)

/-- Modelled from the spec: one encoding pass from a position, annotated with
the position at which each triple is emitted.  A match of length L advances
the window by L + 1 (match plus literal). -/
def EncodeFrom (input : List Nat) : Nat → Nat → List (Nat × triple_struct)
  | 0, _ => []
  | fuel + 1, pos =>
    if pos < input.length then
      (pos, ⟨(MatchPattern input pos).1, (MatchPattern input pos).2,
             input.getD (pos + (MatchPattern input pos).2) 0⟩) ::
        EncodeFrom input fuel (pos + (MatchPattern input pos).2 + 1)
    else []

/-- Modelled from the spec: Encoder::Encode (body missing from src/), the
full triple sequence of an input. -/
def Encode (input : List Nat) : List triple_struct :=
  (EncodeFrom input input.length 0).map Prod.snd

/-- The header's triples_vector_ after Encode. -/
def triples_vector_ (input : List Nat) : List triple_struct :=
  Encode input

/-- The header's offset_sequence_buffer_ after Encode: one offset per
emitted triple, in emission order. -/
def offset_sequence_buffer_ (input : List Nat) : List Nat :=
  (Encode input).map triple_struct.offset

/-- The header's length_sequence_buffer_ after Encode. -/
def length_sequence_buffer_ (input : List Nat) : List Nat :=
  (Encode input).map triple_struct.length

/-- The header's codeword_sequence_buffer_ after Encode. -/
def codeword_sequence_buffer_ (input : List Nat) : List Nat :=
  (Encode input).map triple_struct.codeword

/-- One byte of the decoder's copy loop: append the byte found offset
positions back from the current end of the output buffer. -/
def copyStep (out : List Nat) (off : Nat) : List Nat :=
  out ++ [out.getD (out.length - off) 0]

/-- Iterated decoder copy: n bytes, each offset back from the growing end. -/
def copyN (off : Nat) : Nat → List Nat → List Nat
  | 0, out => out
  | n + 1, out => copyN off n (copyStep out off)

/-- Modelled from the spec: replay of one triple into the output buffer; if
length > 0 copy length bytes starting offset back, then append the literal;
if length = 0 append only the literal. -/
def replayTriple (out : List Nat) (t : triple_struct) : List Nat :=
  copyN t.offset t.length out ++ [t.codeword]

/-- Modelled from the spec: Decoder::DecompressLZ77Code (body missing from
src/), replaying the whole triple stream into the output buffer. -/
def DecompressLZ77Code (triples : List triple_struct) : List Nat :=
  triples.foldl replayTriple []

/-- Modelled from the spec: a Huffman tree node (the Huffman coder's source
is missing from src/). -/
inductive HTree where
  | leaf (s : Nat)
  | node (l r : HTree)
deriving DecidableEq

/-- The symbols at the leaves of a Huffman tree, left to right. -/
def HTree.leaves : HTree → List Nat
  | .leaf s => [s]
  | .node l r => l.leaves ++ r.leaves

/-- All leaf symbols across a worklist of trees, as a multiset. -/
def allLeaves (xs : List (HTree × Nat)) : Multiset Nat :=
  (xs.map (fun p => ((p.1.leaves : List Nat) : Multiset Nat))).sum

/-- Remove the first entry of lowest frequency (deterministic tie-break:
earliest entry wins, as the spec requires). -/
def extractMin : List (HTree × Nat) → Option ((HTree × Nat) × List (HTree × Nat))
  | [] => none
  | x :: xs =>
    match extractMin xs with
    | none => some (x, [])
    | some (m, rest) => if x.2 ≤ m.2 then some (x, xs) else some (m, x :: rest)

/-- Modelled from the spec: repeatedly merge the two lowest-frequency nodes;
the merged node is appended last (insertion-order tie-break). -/
def mergeSteps : Nat → List (HTree × Nat) → List (HTree × Nat)
  | 0, xs => xs
  | fuel + 1, xs =>
    match extractMin xs with
    | none => xs
    | some (a, rest1) =>
      match extractMin rest1 with
      | none => xs
      | some (b, rest2) => mergeSteps fuel (rest2 ++ [(HTree.node a.1 b.1, a.2 + b.2)])

/-- Modelled from the spec: build the Huffman tree from a symbol-frequency
table by repeated merging until one root remains. -/
def buildTree (freqs : List (Nat × Nat)) : Option HTree :=
  match mergeSteps freqs.length (freqs.map (fun p => (HTree.leaf p.1, p.2))) with
  | [(t, _)] => some t
  | _ => none

/-- Root-to-leaf code of every leaf, left = 0 and right = 1. -/
def HTree.codes : HTree → List (Nat × List Bool)
  | .leaf s => [(s, [])]
  | .node l r =>
      (HTree.codes l).map (fun p => (p.1, false :: p.2)) ++
      (HTree.codes r).map (fun p => (p.1, true :: p.2))

/-- Modelled from the spec: the Huffman code table of a frequency table; a
one-symbol alphabet degenerately gets the 1-bit code 0. -/
def buildCodeTable (freqs : List (Nat × Nat)) : List (Nat × List Bool) :=
  match buildTree freqs with
  | none => []
  | some (HTree.leaf s) => [(s, [false])]
  | some t => t.codes

/-- Modelled from the spec: symbol-frequency table of a symbol sequence, in a
fixed deterministic symbol order. -/
def freqTable (xs : List Nat) : List (Nat × Nat) :=
  xs.dedup.map (fun s => (s, xs.count s))

/-- Code of a symbol in a code table (empty when absent). -/
def lookupCode : List (Nat × List Bool) → Nat → List Bool
  | [], _ => []
  | e :: rest, s => if e.1 = s then e.2 else lookupCode rest s

/-- The Huffman code table the encoder builds over the offset alphabet. -/
def offsetCodeTable (input : List Nat) : List (Nat × List Bool) :=
  buildCodeTable (freqTable ((Encode input).map triple_struct.offset))

/-- The Huffman code table the encoder builds over the length alphabet. -/
def lengthCodeTable (input : List Nat) : List (Nat × List Bool) :=
  buildCodeTable (freqTable ((Encode input).map triple_struct.length))

/-- Modelled from the spec: the bits of one triple in the content stream:
offset code, length code, then the literal as a fixed byte. -/
def encodeTripleBits (offT lenT : List (Nat × List Bool)) (t : triple_struct) : List Bool :=
  lookupCode offT t.offset ++ lookupCode lenT t.length ++ natToBits 8 t.codeword

/-- The whole content stream of a triple sequence. -/
def contentBits (offT lenT : List (Nat × List Bool)) (ts : List triple_struct) : List Bool :=
  (ts.map (encodeTripleBits offT lenT)).flatten

/-- One Huffman header entry: symbol, code length, code bits.  Symbol and
code-length fields are 16 bits, wide enough for the full offset range as the
spec's design notes require. -/
def serializeEntry (e : Nat × List Bool) : List Bool :=
  natToBits 16 e.1 ++ natToBits 16 e.2.length ++ e.2

/-- A whole Huffman header: symbol count, then the entries. -/
def serializeTable (table : List (Nat × List Bool)) : List Bool :=
  natToBits 16 table.length ++ (table.map serializeEntry).flatten

/-- Modelled from the spec: Encoder::CompressToFile (body missing from src/):
triple count, offset Huffman header, length Huffman header, content stream,
and zero-bit padding to a byte boundary.  The triple count is the explicit
decoder-termination field the spec's design notes require. -/
def CompressToFile (input : List Nat) : List Bool :=
  let ts := Encode input
  let body := natToBits 32 ts.length ++
    serializeTable (offsetCodeTable input) ++
    serializeTable (lengthCodeTable input) ++
    contentBits (offsetCodeTable input) (lengthCodeTable input) ts
  body ++ List.replicate ((8 - body.length % 8) % 8) false

/-- Read a fixed number of bits, failing on a truncated stream. -/
def readBits (n : Nat) (bits : List Bool) : Option (List Bool × List Bool) :=
  if n ≤ bits.length then some (bits.take n, bits.drop n) else none

/-- The symbol whose code is exactly the accumulated bits, if any. -/
def findByCode : List (Nat × List Bool) → List Bool → Option Nat
  | [], _ => none
  | e :: rest, acc => if e.2 = acc then some e.1 else findByCode rest acc

/-- Modelled from the spec: consume the bitstream one bit at a time against
the decode map until a full code matches; fails if the stream ends mid-code. -/
def decodeSymbol (table : List (Nat × List Bool)) : List Bool → List Bool → Option (Nat × List Bool)
  | acc, [] =>
    match findByCode table acc with
    | some s => some (s, [])
    | none => none
  | acc, b :: rest =>
    match findByCode table acc with
    | some s => some (s, b :: rest)
    | none => decodeSymbol table (acc ++ [b]) rest

/-- Parse a fixed number of Huffman header entries. -/
def parseEntries : Nat → List Bool → Option (List (Nat × List Bool) × List Bool)
  | 0, bits => some ([], bits)
  | n + 1, bits => do
    let (sb, bits1) ← readBits 16 bits
    let (lb, bits2) ← readBits 16 bits1
    let (cb, bits3) ← readBits (BinStringToInt lb) bits2
    let (restEntries, bits4) ← parseEntries n bits3
    some ((BinStringToInt sb, cb) :: restEntries, bits4)

/-- Parse one Huffman header: symbol count, then the entries. -/
def parseTable (bits : List Bool) : Option (List (Nat × List Bool) × List Bool) := do
  let (cb, bits1) ← readBits 16 bits
  parseEntries (BinStringToInt cb) bits1

/-- Decode a fixed number of triples from the content stream. -/
def decodeTriples (offT lenT : List (Nat × List Bool)) :
    Nat → List Bool → Option (List triple_struct × List Bool)
  | 0, bits => some ([], bits)
  | n + 1, bits => do
    let (o, bits1) ← decodeSymbol offT [] bits
    let (l, bits2) ← decodeSymbol lenT [] bits1
    let (cw, bits3) ← readBits 8 bits2
    let (ts, bits4) ← decodeTriples offT lenT n bits3
    some (⟨o, l, BinStringToInt cw⟩ :: ts, bits4)

/-- Modelled from the spec: the whole decoder pipeline
(Decoder::DecompressFromFile with Decode, bodies missing from src/): read the
triple count, both Huffman headers, decode that many triples, replay them. -/
def DecompressFromFile (bits : List Bool) : Option (List Nat) := do
  let (nb, bits1) ← readBits 32 bits
  let (offT, bits2) ← parseTable bits1
  let (lenT, bits3) ← parseTable bits2
  let (ts, _) ← decodeTriples offT lenT (BinStringToInt nb) bits3
  some (DecompressLZ77Code ts)

/-- One bit string starts the other: the second is the first plus a tail. -/
def starts (a b : List Bool) : Prop :=
  ∃ t, b = a ++ t

/-- Two code-table entries have incomparable codes. -/
def codeFree (e₁ e₂ : Nat × List Bool) : Prop :=
  ¬ starts e₁.2 e₂.2 ∧ ¬ starts e₂.2 e₁.2

end LZ77

namespace LZ77

/-! ### Bit codec lemmas -/

theorem natToBits_length (w : Nat) : ∀ v, (natToBits w v).length = w := by
  induction w with
  | zero => intro v; rfl
  | succ w ih => intro v; simp [natToBits, ih]

theorem binFold_natToBits (w : Nat) : ∀ v acc, v < 2 ^ w →
    List.foldl (fun acc b => 2 * acc + (if b then 1 else 0)) acc (natToBits w v) =
      acc * 2 ^ w + v := by
  induction w with
  | zero =>
    intro v acc hv
    have hv0 : v = 0 := by omega
    simp [natToBits, hv0]
  | succ w ih =>
    intro v acc hv
    have hpow : (2 : Nat) ^ (w + 1) = 2 * 2 ^ w := by
      rw [pow_succ]; ring
    have hv2 : v / 2 < 2 ^ w := by omega
    rw [natToBits, List.foldl_append, ih (v / 2) acc hv2]
    have hmul : acc * (2 * 2 ^ w) = 2 * (acc * 2 ^ w) := by ring
    rcases Nat.mod_two_eq_zero_or_one v with h | h <;> simp [h, hpow, hmul] <;> omega

theorem BinStringToInt_natToBits {w v : Nat} (hv : v < 2 ^ w) :
    BinStringToInt (natToBits w v) = v := by
  have h := binFold_natToBits w v 0 hv
  simpa [BinStringToInt] using h

/-- C8: for every integer value and bit width, IntToBinString fails with
RangeError whenever the value does not fit, as an unsigned big-endian number,
in the given number of bits. -/
theorem C8_IntToBinString_range_error (value : Int) (string_size : Nat)
    (h : ¬ (0 ≤ value ∧ value < (2 : Int) ^ string_size)) :
    IntToBinString value string_size = Except.error BitCodecError.RangeError := by
  simp only [IntToBinString, if_neg h]

theorem C8_witness :
    (¬ ((0 : Int) ≤ 256 ∧ (256 : Int) < (2 : Int) ^ 8)) ∧
      IntToBinString 256 8 = Except.error BitCodecError.RangeError :=
  ⟨by norm_num, C8_IntToBinString_range_error 256 8 (by norm_num)⟩

/-- C9: for every non-negative integer v and width w with v fitting in w
bits, decoding the encoding is the identity. -/
theorem C9_bin_string_roundtrip (v w : Nat) (h : v < 2 ^ w) :
    ∃ bits, IntToBinString (v : Int) w = Except.ok bits ∧ BinStringToInt bits = v := by
  refine ⟨natToBits w v, ?_, BinStringToInt_natToBits h⟩
  have h0 : (0 : Int) ≤ (v : Int) := Int.ofNat_nonneg v
  have h1 : (v : Int) < (2 : Int) ^ w := by exact_mod_cast h
  simp [IntToBinString, h0, h1]

theorem C9_witness :
    5 < 2 ^ 3 ∧
      ∃ bits, IntToBinString (5 : Int) 3 = Except.ok bits ∧ BinStringToInt bits = 5 :=
  ⟨by norm_num, C9_bin_string_roundtrip 5 3 (by norm_num)⟩

/-! ### List access helpers -/

theorem getD_drop {α : Type} (l : List α) (k i : Nat) (d : α) :
    (List.drop k l).getD i d = l.getD (k + i) d := by
  induction l generalizing k with
  | nil => simp
  | cons a as ih =>
    cases k with
    | zero => simp
    | succ k =>
      have : k + 1 + i = (k + i) + 1 := by omega
      simp [this, ih]

theorem getD_take {α : Type} (l : List α) : ∀ (n i : Nat), i < n → ∀ (d : α),
    (List.take n l).getD i d = l.getD i d := by
  induction l with
  | nil => intro n i _ d; simp
  | cons a as ih =>
    intro n i hin d
    cases n with
    | zero => omega
    | succ n =>
      cases i with
      | zero => simp
      | succ i => simpa using ih n i (by omega) d

theorem take_succ_getD {α : Type} (l : List α) : ∀ (n : Nat), n < l.length → ∀ (d : α),
    List.take (n + 1) l = List.take n l ++ [l.getD n d] := by
  induction l with
  | nil => intro n hn; simp at hn
  | cons a as ih =>
    intro n hn d
    cases n with
    | zero => simp
    | succ n => simpa using ih n (by simpa using hn) d

theorem getD_mem {α : Type} (l : List α) : ∀ (i : Nat), i < l.length → ∀ (d : α),
    l.getD i d ∈ l := by
  induction l with
  | nil => intro i hi; simp at hi
  | cons a as ih =>
    intro i hi d
    cases i with
    | zero => simp
    | succ i =>
      simp only [List.getD_cons_succ]
      exact List.mem_cons_of_mem a (ih i (by simpa using hi) d)

theorem take_len_le {α : Type} (l : List α) (n : Nat) (h : l.length ≤ n) :
    List.take n l = l :=
  List.take_of_length_le h

theorem eq_of_getD {α : Type} (d : α) :
    ∀ (a b : List α), a.length = b.length →
      (∀ i, i < a.length → a.getD i d = b.getD i d) → a = b := by
  intro a
  induction a with
  | nil =>
    intro b hl _
    cases b with
    | nil => rfl
    | cons y ys => simp at hl
  | cons x xs ih =>
    intro b hl h
    cases b with
    | nil => simp at hl
    | cons y ys =>
      have h0 := h 0 (by simp)
      simp only [List.getD_cons_zero] at h0
      have htail : xs = ys := by
        refine ih ys (by simpa using hl) ?_
        intro i hi
        simpa using h (i + 1) (by simpa using Nat.succ_lt_succ hi)
      rw [h0, htail]

end LZ77

namespace LZ77

/-! ### Longest-common-prefix lemmas -/

theorem lcp_le_right : ∀ (a b : List Nat), lcp a b ≤ b.length := by
  intro a
  induction a with
  | nil => intro b; cases b <;> simp [lcp]
  | cons x as ih =>
    intro b
    cases b with
    | nil => simp [lcp]
    | cons y bs =>
      by_cases hxy : x = y
      · simpa [lcp, hxy] using ih bs
      · simp [lcp, hxy]

theorem lcp_getD : ∀ (a b : List Nat) (i : Nat), i < lcp a b → ∀ d, a.getD i d = b.getD i d := by
  intro a
  induction a with
  | nil => intro b i hi; cases b <;> simp [lcp] at hi
  | cons x as ih =>
    intro b i hi d
    cases b with
    | nil => simp [lcp] at hi
    | cons y bs =>
      by_cases hxy : x = y
      · simp only [lcp, if_pos hxy] at hi
        cases i with
        | zero => simpa using hxy
        | succ i => simpa using ih bs i (by omega) d
      · simp [lcp, hxy] at hi

/-! ### Match engine lemmas -/

theorem look_ahead_length (input : List Nat) (pos : Nat) :
    (look_ahead_buffer_ input pos).length =
      min look_ahead_buffer_size_ (input.length - pos - 1) := by
  simp only [look_ahead_buffer_, look_ahead_buffer_size_, List.length_take, List.length_drop]
  omega

theorem MatchPattern_eq_foldl (input : List Nat) (pos : Nat) :
    MatchPattern input pos =
      (List.range' 1 (min pos search_buffer_size_)).foldl (matchStep input pos) (0, 0) := rfl

theorem foldl_matchStep_inv (input : List Nat) (pos k : Nat) :
    ∀ (L : List Nat) (best : Nat × Nat), (∀ off ∈ L, 1 ≤ off ∧ off ≤ k) →
      matchInv input pos k best →
      matchInv input pos k (L.foldl (matchStep input pos) best) := by
  intro L
  induction L with
  | nil => intro best _ hb; simpa using hb
  | cons o L ih =>
    intro best hL hb
    refine ih (matchStep input pos best o)
      (fun off hoff => hL off (List.mem_cons_of_mem o hoff)) ?_
    unfold matchStep
    split
    · rename_i hlt
      have ho := hL o (List.mem_cons_self o L)
      exact Or.inr ⟨ho.1, ho.2, by omega, rfl⟩
    · exact hb

theorem foldl_matchStep_ge (input : List Nat) (pos : Nat) :
    ∀ (L : List Nat) (best : Nat × Nat),
      best.2 ≤ (L.foldl (matchStep input pos) best).2 ∧
      ∀ off ∈ L, matchLenAt input pos off ≤ (L.foldl (matchStep input pos) best).2 := by
  intro L
  induction L with
  | nil => intro best; exact ⟨le_refl _, by simp⟩
  | cons o L ih =>
    intro best
    have hstep : best.2 ≤ (matchStep input pos best o).2 ∧
        matchLenAt input pos o ≤ (matchStep input pos best o).2 := by
      unfold matchStep
      split
      · rename_i hlt
        exact ⟨le_of_lt hlt, le_refl _⟩
      · rename_i hlt
        exact ⟨le_refl _, by omega⟩
    have h := ih (matchStep input pos best o)
    refine ⟨le_trans hstep.1 h.1, ?_⟩
    intro off hoff
    rcases List.mem_cons.mp hoff with rfl | hoff
    · exact le_trans hstep.2 h.1
    · exact h.2 off hoff

theorem MatchPattern_inv (input : List Nat) (pos : Nat) :
    matchInv input pos (min pos search_buffer_size_) (MatchPattern input pos) := by
  rw [MatchPattern_eq_foldl]
  refine foldl_matchStep_inv input pos _ _ _ ?_ (Or.inl rfl)
  intro off hoff
  have := List.mem_range'_1.mp hoff
  omega

theorem MatchPattern_maximal (input : List Nat) (pos off : Nat)
    (h1 : 1 ≤ off) (h2 : off ≤ min pos search_buffer_size_) :
    matchLenAt input pos off ≤ (MatchPattern input pos).2 := by
  rw [MatchPattern_eq_foldl]
  refine (foldl_matchStep_ge input pos _ (0, 0)).2 off ?_
  apply List.mem_range'_1.mpr
  omega

theorem MatchPattern_len_le (input : List Nat) (pos : Nat) :
    (MatchPattern input pos).2 ≤ min look_ahead_buffer_size_ (input.length - pos - 1) := by
  rcases MatchPattern_inv input pos with h | h
  · rw [h]; simp
  · calc (MatchPattern input pos).2
        = matchLenAt input pos (MatchPattern input pos).1 := h.2.2.2
      _ ≤ (look_ahead_buffer_ input pos).length := lcp_le_right _ _
      _ = _ := look_ahead_length input pos

theorem MatchPattern_end_lt (input : List Nat) (pos : Nat) (hpos : pos < input.length) :
    pos + (MatchPattern input pos).2 < input.length := by
  have h := MatchPattern_len_le input pos
  omega

theorem MatchPattern_off (input : List Nat) (pos : Nat)
    (h : 1 ≤ (MatchPattern input pos).2) :
    1 ≤ (MatchPattern input pos).1 ∧
      (MatchPattern input pos).1 ≤ min pos search_buffer_size_ ∧
      (MatchPattern input pos).2 = matchLenAt input pos (MatchPattern input pos).1 := by
  rcases MatchPattern_inv input pos with h0 | h0
  · rw [h0] at h; simp at h
  · exact ⟨h0.1, h0.2.1, h0.2.2.2⟩

theorem MatchPattern_zero (input : List Nat) (pos : Nat)
    (h : (MatchPattern input pos).2 = 0) : MatchPattern input pos = (0, 0) := by
  rcases MatchPattern_inv input pos with h0 | h0
  · exact h0
  · have := h0.2.2.1
    omega

theorem MatchPattern_bytes (input : List Nat) (pos : Nat)
    (i : Nat) (hi : i < (MatchPattern input pos).2) :
    input.getD (pos - (MatchPattern input pos).1 + i) 0 = input.getD (pos + i) 0 := by
  have hpos1 : 1 ≤ (MatchPattern input pos).2 := by omega
  have hoff := MatchPattern_off input pos hpos1
  have hlen : i < matchLenAt input pos (MatchPattern input pos).1 := by
    rw [← hoff.2.2]; exact hi
  have hm : i < min look_ahead_buffer_size_ (input.length - pos - 1) :=
    lt_of_lt_of_le hi (MatchPattern_len_le input pos)
  unfold matchLenAt at hlen
  have h1 := lcp_getD _ _ i hlen 0
  rw [getD_drop] at h1
  rw [look_ahead_buffer_] at h1
  rw [getD_take _ _ i hm 0] at h1
  rw [getD_drop] at h1
  exact h1

/-! ### Encoder pass lemmas -/

theorem EncodeFrom_mem (input : List Nat) :
    ∀ (fuel pos p : Nat) (t : triple_struct), (p, t) ∈ EncodeFrom input fuel pos →
      pos ≤ p ∧ p < input.length ∧
      t = ⟨(MatchPattern input p).1, (MatchPattern input p).2,
           input.getD (p + (MatchPattern input p).2) 0⟩ := by
  intro fuel
  induction fuel with
  | zero => intro pos p t h; simp [EncodeFrom] at h
  | succ fuel ih =>
    intro pos p t h
    rw [EncodeFrom] at h
    by_cases hpos : pos < input.length
    · rw [if_pos hpos] at h
      rcases List.mem_cons.mp h with heq | hmem
      · injection heq with h1 h2
        subst h1
        subst h2
        exact ⟨le_refl _, hpos, rfl⟩
      · have h3 := ih _ p t hmem
        exact ⟨by omega, h3.2.1, h3.2.2⟩
    · rw [if_neg hpos] at h
      simp at h

end LZ77

namespace LZ77

/-! ### Decoder replay lemmas -/

theorem getD_append_left {α : Type} (l l' : List α) :
    ∀ i, i < l.length → ∀ d, (l ++ l').getD i d = l.getD i d := by
  induction l with
  | nil => intro i hi d; simp at hi
  | cons a as ih =>
    intro i hi d
    cases i with
    | zero => simp
    | succ i => simpa using ih i (by simpa using hi) d

theorem getD_append_right_eq {α : Type} (l : List α) (x : α) (d : α) :
    (l ++ [x]).getD l.length d = x := by
  induction l with
  | nil => rfl
  | cons a as ih => simp [ih]

theorem copyStep_length (out : List Nat) (off : Nat) :
    (copyStep out off).length = out.length + 1 := by
  simp [copyStep]

theorem copyN_length (off : Nat) : ∀ (n : Nat) (out : List Nat),
    (copyN off n out).length = out.length + n := by
  intro n
  induction n with
  | zero => intro out; simp [copyN]
  | succ n ih =>
    intro out
    rw [copyN, ih, copyStep_length]
    omega

theorem copyN_getD_old (off : Nat) : ∀ (n : Nat) (out : List Nat) (i : Nat),
    i < out.length → (copyN off n out).getD i 0 = out.getD i 0 := by
  intro n
  induction n with
  | zero => intro out i _; simp [copyN]
  | succ n ih =>
    intro out i hi
    rw [copyN]
    rw [ih (copyStep out off) i (by rw [copyStep_length]; omega)]
    unfold copyStep
    exact getD_append_left out _ i hi 0

theorem copyN_getD_back (off : Nat) (hoff : 1 ≤ off) :
    ∀ (n : Nat) (out : List Nat), off ≤ out.length →
      ∀ j, j < n →
        (copyN off n out).getD (out.length + j) 0 =
          (copyN off n out).getD (out.length + j - off) 0 := by
  intro n
  induction n with
  | zero => intro out _ j hj; omega
  | succ n ih =>
    intro out hle j hj
    rw [copyN]
    cases j with
    | zero =>
      have hlt : out.length < (copyStep out off).length := by rw [copyStep_length]; omega
      have hlt2 : out.length + 0 - off < (copyStep out off).length := by
        rw [copyStep_length]; omega
      rw [copyN_getD_old off n (copyStep out off) (out.length + 0) (by omega)]
      rw [copyN_getD_old off n (copyStep out off) (out.length + 0 - off) (by rw [copyStep_length]; omega)]
      rw [Nat.add_zero]
      unfold copyStep
      rw [getD_append_right_eq]
      rw [getD_append_left out _ (out.length - off) (by omega) 0]
    | succ j =>
      have h1 : out.length + (j + 1) = (copyStep out off).length + j := by
        rw [copyStep_length]; omega
      rw [h1]
      exact ih (copyStep out off) (by rw [copyStep_length]; omega) j (by omega)

theorem copyN_take (input : List Nat) :
    ∀ (n pos off : Nat), 1 ≤ off → off ≤ pos → pos + n ≤ input.length →
      (∀ i, i < n → input.getD (pos - off + i) 0 = input.getD (pos + i) 0) →
      copyN off n (List.take pos input) = List.take (pos + n) input := by
  intro n
  induction n with
  | zero => intro pos off _ _ _ _; simp [copyN]
  | succ n ih =>
    intro pos off h1 h2 h3 h4
    have hpos : pos < input.length := by omega
    have hlen : (List.take pos input).length = pos := by
      simp [List.length_take]
      omega
    have hstep : copyStep (List.take pos input) off = List.take (pos + 1) input := by
      unfold copyStep
      rw [hlen]
      rw [getD_take input pos (pos - off) (by omega) 0]
      have h0 := h4 0 (by omega)
      simp only [Nat.add_zero] at h0
      rw [h0]
      exact (take_succ_getD input pos hpos 0).symm
    have harg : ∀ i, i < n → input.getD (pos + 1 - off + i) 0 = input.getD (pos + 1 + i) 0 := by
      intro i hi
      have h5 := h4 (i + 1) (by omega)
      have heq : pos - off + (i + 1) = pos + 1 - off + i := by omega
      have heq2 : pos + (i + 1) = pos + 1 + i := by omega
      rw [heq, heq2] at h5
      exact h5
    rw [copyN, hstep, ih (pos + 1) off h1 (by omega) (by omega) harg]
    congr 1
    omega

theorem replay_step (input : List Nat) (pos : Nat) (hpos : pos < input.length) :
    replayTriple (List.take pos input)
      ⟨(MatchPattern input pos).1, (MatchPattern input pos).2,
        input.getD (pos + (MatchPattern input pos).2) 0⟩ =
      List.take (pos + (MatchPattern input pos).2 + 1) input := by
  show copyN (MatchPattern input pos).1 (MatchPattern input pos).2 (List.take pos input) ++
      [input.getD (pos + (MatchPattern input pos).2) 0] =
    List.take (pos + (MatchPattern input pos).2 + 1) input
  by_cases hm : (MatchPattern input pos).2 = 0
  · rw [hm]
    simp only [copyN, Nat.add_zero]
    exact (take_succ_getD input pos hpos 0).symm
  · have h1 : 1 ≤ (MatchPattern input pos).2 := by omega
    have hoff := MatchPattern_off input pos h1
    have hend := MatchPattern_end_lt input pos hpos
    rw [copyN_take input (MatchPattern input pos).2 pos (MatchPattern input pos).1
        hoff.1 (by have := hoff.2.1; omega) (by omega)
        (fun i hi => MatchPattern_bytes input pos i hi)]
    exact (take_succ_getD input (pos + (MatchPattern input pos).2) hend 0).symm

theorem foldl_replay (input : List Nat) :
    ∀ (fuel pos : Nat), input.length ≤ pos + fuel →
      List.foldl replayTriple (List.take pos input)
        ((EncodeFrom input fuel pos).map Prod.snd) = input := by
  intro fuel
  induction fuel with
  | zero =>
    intro pos h
    rw [EncodeFrom]
    simp only [List.map_nil, List.foldl_nil]
    exact take_len_le input pos (by omega)
  | succ fuel ih =>
    intro pos h
    rw [EncodeFrom]
    by_cases hpos : pos < input.length
    · rw [if_pos hpos]
      simp only [List.map_cons, List.foldl_cons]
      rw [replay_step input pos hpos]
      exact ih (pos + (MatchPattern input pos).2 + 1) (by omega)
    · rw [if_neg hpos]
      simp only [List.map_nil, List.foldl_nil]
      exact take_len_le input pos (by omega)

theorem lz77_roundtrip (input : List Nat) :
    DecompressLZ77Code (Encode input) = input := by
  have h := foldl_replay input input.length 0 (by omega)
  simpa [DecompressLZ77Code, Encode] using h

theorem EncodeFrom_length_le (input : List Nat) :
    ∀ fuel pos, (EncodeFrom input fuel pos).length ≤ fuel := by
  intro fuel
  induction fuel with
  | zero => intro pos; simp [EncodeFrom]
  | succ fuel ih =>
    intro pos
    rw [EncodeFrom]
    split
    · simp only [List.length_cons]
      exact Nat.succ_le_succ (ih _)
    · simp

theorem Encode_length_le (input : List Nat) :
    (Encode input).length ≤ input.length := by
  have h := EncodeFrom_length_le input input.length 0
  simpa [Encode] using h

end LZ77

namespace LZ77

/-! ### Per-triple claim theorems -/

/-- C2: for every emitted triple with length > 0, the length bytes of the
original input starting offset positions before the emission position equal
the next length bytes of the original input at that position. -/
theorem C2_match_correctness (input : List Nat) (p : Nat) (t : triple_struct)
    (hmem : (p, t) ∈ EncodeFrom input input.length 0) (hlen : 0 < t.length) :
    List.take t.length (List.drop (p - t.offset) input) =
      List.take t.length (List.drop p input) := by
  obtain ⟨-, hp, ht⟩ := EncodeFrom_mem input input.length 0 p t hmem
  subst ht
  dsimp only at hlen ⊢
  have hend := MatchPattern_end_lt input p hp
  have hoff := MatchPattern_off input p (by omega)
  have hople : (MatchPattern input p).1 ≤ p := by
    have := hoff.2.1
    omega
  apply eq_of_getD 0
  · simp only [List.length_take, List.length_drop]
    omega
  · intro i hi
    have hi2 : i < (MatchPattern input p).2 := by
      simp only [List.length_take, List.length_drop] at hi
      omega
    rw [getD_take _ _ i hi2 0, getD_take _ _ i hi2 0, getD_drop, getD_drop]
    exact MatchPattern_bytes input p i hi2

theorem C2_witness :
    ((1 : Nat), (⟨1, 1, 98⟩ : triple_struct)) ∈ EncodeFrom [97, 97, 98] 3 0 ∧
      0 < (⟨1, 1, 98⟩ : triple_struct).length ∧
      List.take (⟨1, 1, 98⟩ : triple_struct).length
          (List.drop (1 - (⟨1, 1, 98⟩ : triple_struct).offset) [97, 97, 98]) =
        List.take (⟨1, 1, 98⟩ : triple_struct).length (List.drop 1 [97, 97, 98]) :=
  ⟨by decide, by decide,
    C2_match_correctness [97, 97, 98] 1 ⟨1, 1, 98⟩ (by decide) (by decide)⟩

/-- C3: at every emission step, the Substring Index holds at most
search_buffer_size_ = 2048 entries and the emitted offset is at most 2048. -/
theorem C3_window_bound (input : List Nat) (p : Nat) (t : triple_struct)
    (hmem : (p, t) ∈ EncodeFrom input input.length 0) :
    (search_buffer_tree_ input p).length ≤ search_buffer_size_ ∧
      t.offset ≤ search_buffer_size_ := by
  obtain ⟨-, hp, ht⟩ := EncodeFrom_mem input input.length 0 p t hmem
  subst ht
  dsimp only
  constructor
  · simp only [search_buffer_tree_, List.length_map, List.length_range']
    simp [search_buffer_size_]
  · by_cases hm : (MatchPattern input p).2 = 0
    · rw [MatchPattern_zero input p hm]
      simp [search_buffer_size_]
    · have hoff := MatchPattern_off input p (by omega)
      have := hoff.2.1
      simp only [search_buffer_size_] at this ⊢
      omega

theorem C3_witness :
    ((1 : Nat), (⟨1, 1, 98⟩ : triple_struct)) ∈ EncodeFrom [97, 97, 98] 3 0 ∧
      (search_buffer_tree_ [97, 97, 98] 1).length ≤ search_buffer_size_ ∧
      (⟨1, 1, 98⟩ : triple_struct).offset ≤ search_buffer_size_ :=
  ⟨by decide, C3_window_bound [97, 97, 98] 1 ⟨1, 1, 98⟩ (by decide)⟩

/-- C4: the decoder's replay of one triple, for every triple: it grows the
buffer by length + 1 entries, preserves the existing entries, the literal
lands last, and with length = 0 only the literal is appended; whenever the
offset is at least 1 and within the buffer, each of the length copied bytes
equals the byte offset positions back in the (growing) buffer. -/
theorem C4_decoder_replay (out : List Nat) (t : triple_struct) :
    (replayTriple out t).length = out.length + t.length + 1 ∧
      (t.length = 0 → replayTriple out t = out ++ [t.codeword]) ∧
      (∀ i, i < out.length → (replayTriple out t).getD i 0 = out.getD i 0) ∧
      (1 ≤ t.offset → t.offset ≤ out.length →
        ∀ j, j < t.length →
          (replayTriple out t).getD (out.length + j) 0 =
            (replayTriple out t).getD (out.length + j - t.offset) 0) ∧
      (replayTriple out t).getD (out.length + t.length) 0 = t.codeword := by
  refine ⟨?_, ?_, ?_, ?_, ?_⟩
  · simp [replayTriple, copyN_length]
  · intro h0
    simp [replayTriple, h0, copyN]
  · intro i hi
    unfold replayTriple
    rw [getD_append_left _ _ i (by rw [copyN_length]; omega) 0]
    exact copyN_getD_old t.offset t.length out i hi
  · intro h1 h2 j hj
    unfold replayTriple
    rw [getD_append_left _ _ (out.length + j) (by rw [copyN_length]; omega) 0]
    rw [getD_append_left _ _ (out.length + j - t.offset) (by rw [copyN_length]; omega) 0]
    exact copyN_getD_back t.offset h1 t.length out h2 j hj
  · unfold replayTriple
    have hlen : out.length + t.length = (copyN t.offset t.length out).length :=
      (copyN_length t.offset t.length out).symm
    rw [hlen, getD_append_right_eq]

theorem C4_witness :
    replayTriple [5, 6] ⟨0, 0, 7⟩ = [5, 6, 7] ∧
      (replayTriple [5, 6] ⟨2, 3, 9⟩).length = 6 ∧
      (replayTriple [5, 6] ⟨2, 3, 9⟩).getD 2 0 = (replayTriple [5, 6] ⟨2, 3, 9⟩).getD 0 0 ∧
      (replayTriple [5, 6] ⟨2, 3, 9⟩).getD 5 0 = 9 :=
  ⟨(C4_decoder_replay [5, 6] ⟨0, 0, 7⟩).2.1 rfl,
    (C4_decoder_replay [5, 6] ⟨2, 3, 9⟩).1,
    (C4_decoder_replay [5, 6] ⟨2, 3, 9⟩).2.2.2.1 (by decide) (by decide) 0 (by decide),
    (C4_decoder_replay [5, 6] ⟨2, 3, 9⟩).2.2.2.2⟩

/-- C5: each emitted triple follows the spec's emission rule: when the
longest in-window common prefix has length at least 1 the triple carries its
offset, that length, and the literal after the run; otherwise it is
(0, 0, current literal).  The match length is maximal over the window. -/
theorem C5_emission_rule (input : List Nat) (p : Nat) (t : triple_struct)
    (hmem : (p, t) ∈ EncodeFrom input input.length 0) :
    (∀ off, 1 ≤ off → off ≤ min p search_buffer_size_ →
        matchLenAt input p off ≤ (MatchPattern input p).2) ∧
      (1 ≤ (MatchPattern input p).2 →
        t = ⟨(MatchPattern input p).1, (MatchPattern input p).2,
             input.getD (p + (MatchPattern input p).2) 0⟩ ∧
          1 ≤ (MatchPattern input p).1 ∧
          (MatchPattern input p).1 ≤ min p search_buffer_size_ ∧
          (MatchPattern input p).2 = matchLenAt input p (MatchPattern input p).1) ∧
      ((MatchPattern input p).2 = 0 → t = ⟨0, 0, input.getD p 0⟩) := by
  obtain ⟨-, hp, ht⟩ := EncodeFrom_mem input input.length 0 p t hmem
  refine ⟨fun off ho1 ho2 => MatchPattern_maximal input p off ho1 ho2, ?_, ?_⟩
  · intro hm
    have hoff := MatchPattern_off input p hm
    exact ⟨ht, hoff.1, hoff.2.1, hoff.2.2⟩
  · intro hm
    rw [ht, MatchPattern_zero input p hm]
    simp

theorem C5_witness :
    ((1 : Nat), (⟨1, 1, 98⟩ : triple_struct)) ∈ EncodeFrom [97, 97, 98] 3 0 ∧
      (⟨1, 1, 98⟩ : triple_struct) =
        ⟨(MatchPattern [97, 97, 98] 1).1, (MatchPattern [97, 97, 98] 1).2,
          ([97, 97, 98] : List Nat).getD (1 + (MatchPattern [97, 97, 98] 1).2) 0⟩ :=
  ⟨by decide,
    ((C5_emission_rule [97, 97, 98] 1 ⟨1, 1, 98⟩ (by decide)).2.1 (by decide)).1⟩

/-- C10: after Encode, the three parallel sequence buffers hold exactly one
entry per triple of triples_vector_, so all four have the same length. -/
theorem C10_parallel_buffers (input : List Nat) :
    (offset_sequence_buffer_ input).length = (triples_vector_ input).length ∧
      (length_sequence_buffer_ input).length = (triples_vector_ input).length ∧
      (codeword_sequence_buffer_ input).length = (triples_vector_ input).length := by
  simp [offset_sequence_buffer_, length_sequence_buffer_, codeword_sequence_buffer_,
    triples_vector_]

end LZ77

namespace LZ77

/-! ### Huffman tree construction lemmas -/

theorem extractMin_cons_isSome (x : HTree × Nat) (t : List (HTree × Nat)) :
    (extractMin (x :: t)).isSome := by
  rw [extractMin]
  cases extractMin t with
  | none => simp
  | some m =>
    rcases m with ⟨m, rest⟩
    dsimp only
    split <;> simp

theorem extractMin_perm : ∀ (xs : List (HTree × Nat)) (m : HTree × Nat)
    (rest : List (HTree × Nat)),
    extractMin xs = some (m, rest) → (m :: rest).Perm xs := by
  intro xs
  induction xs with
  | nil => intro m rest h; simp [extractMin] at h
  | cons x t ih =>
    intro m rest h
    rw [extractMin] at h
    cases he : extractMin t with
    | none =>
      rw [he] at h
      have ht : t = [] := by
        cases t with
        | nil => rfl
        | cons y u =>
          have hs := extractMin_cons_isSome y u
          rw [he] at hs
          simp at hs
      simp only [Option.some.injEq, Prod.mk.injEq] at h
      obtain ⟨hm, hrest⟩ := h
      subst hm
      subst hrest
      rw [ht]
    | some p =>
      rcases p with ⟨m', rest'⟩
      rw [he] at h
      dsimp only at h
      split at h
      · simp only [Option.some.injEq, Prod.mk.injEq] at h
        obtain ⟨hm, hrest⟩ := h
        subst hm
        subst hrest
        exact List.Perm.refl _
      · simp only [Option.some.injEq, Prod.mk.injEq] at h
        obtain ⟨hm, hrest⟩ := h
        subst hm
        subst hrest
        exact List.Perm.trans (List.Perm.swap _ _ _) (List.Perm.cons _ (ih _ _ he))

theorem allLeaves_perm {xs ys : List (HTree × Nat)} (h : xs.Perm ys) :
    allLeaves xs = allLeaves ys := by
  unfold allLeaves
  exact List.Perm.sum_eq (h.map _)

theorem allLeaves_cons (a : HTree × Nat) (xs : List (HTree × Nat)) :
    allLeaves (a :: xs) = ((a.1.leaves : List Nat) : Multiset Nat) + allLeaves xs := by
  unfold allLeaves
  rw [List.map_cons, List.sum_cons]

theorem allLeaves_append (xs ys : List (HTree × Nat)) :
    allLeaves (xs ++ ys) = allLeaves xs + allLeaves ys := by
  unfold allLeaves
  rw [List.map_append, List.sum_append]

theorem mergeSteps_allLeaves : ∀ (fuel : Nat) (xs : List (HTree × Nat)),
    allLeaves (mergeSteps fuel xs) = allLeaves xs := by
  intro fuel
  induction fuel with
  | zero => intro xs; rfl
  | succ fuel ih =>
    intro xs
    rw [mergeSteps]
    cases h1 : extractMin xs with
    | none => rfl
    | some p =>
      rcases p with ⟨a, rest1⟩
      dsimp only
      cases h2 : extractMin rest1 with
      | none => rfl
      | some q =>
        rcases q with ⟨b, rest2⟩
        rw [ih]
        have e1 : allLeaves xs = allLeaves (a :: rest1) :=
          (allLeaves_perm (extractMin_perm xs a rest1 h1)).symm
        have e2 : allLeaves rest1 = allLeaves (b :: rest2) :=
          (allLeaves_perm (extractMin_perm rest1 b rest2 h2)).symm
        have hsing : allLeaves [(HTree.node a.1 b.1, a.2 + b.2)] =
            ((a.1.leaves : List Nat) : Multiset Nat) +
              ((b.1.leaves : List Nat) : Multiset Nat) := by
          show ((((HTree.node a.1 b.1).leaves : List Nat) : Multiset Nat) + 0 = _)
          rw [add_zero]
          show ((((a.1.leaves ++ b.1.leaves : List Nat)) : Multiset Nat) = _)
          exact (Multiset.coe_add _ _).symm
        rw [allLeaves_append, hsing, e1, allLeaves_cons, e2, allLeaves_cons]
        abel

end LZ77

namespace LZ77

theorem extractMin_length {xs : List (HTree × Nat)} {m : HTree × Nat}
    {rest : List (HTree × Nat)} (h : extractMin xs = some (m, rest)) :
    rest.length + 1 = xs.length := by
  have hp := extractMin_perm xs m rest h
  have := hp.length_eq
  simpa using this

theorem mergeSteps_singleton : ∀ (fuel : Nat) (xs : List (HTree × Nat)),
    1 ≤ xs.length → xs.length ≤ fuel + 1 →
    ∃ t f, mergeSteps fuel xs = [(t, f)] := by
  intro fuel
  induction fuel with
  | zero =>
    intro xs h1 h2
    have : xs.length = 1 := by omega
    cases xs with
    | nil => simp at this
    | cons x t =>
      cases t with
      | nil => exact ⟨x.1, x.2, rfl⟩
      | cons y u => simp at this
  | succ fuel ih =>
    intro xs h1 h2
    cases xs with
    | nil => simp at h1
    | cons x t =>
      cases t with
      | nil =>
        refine ⟨x.1, x.2, ?_⟩
        rw [mergeSteps]
        have hx : extractMin [x] = some (x, []) := rfl
        rw [hx]
        simp [extractMin]
      | cons y u =>
        rw [mergeSteps]
        cases hx : extractMin (x :: y :: u) with
        | none =>
          have hs := extractMin_cons_isSome x (y :: u)
          rw [hx] at hs
          simp at hs
        | some p =>
          rcases p with ⟨a, rest1⟩
          dsimp only
          have hl1 : rest1.length + 1 = (x :: y :: u).length := extractMin_length hx
          have hr1 : 1 ≤ rest1.length := by
            simp only [List.length_cons] at hl1
            omega
          cases hx2 : extractMin rest1 with
          | none =>
            cases rest1 with
            | nil => simp at hr1
            | cons z v =>
              have hs := extractMin_cons_isSome z v
              rw [hx2] at hs
              simp at hs
          | some q =>
            rcases q with ⟨b, rest2⟩
            have hl2 : rest2.length + 1 = rest1.length := extractMin_length hx2
            refine ih (rest2 ++ [(HTree.node a.1 b.1, a.2 + b.2)]) ?_ ?_
            · simp
            · simp only [List.length_append, List.length_cons, List.length_nil] at h2 hl1 hl2 ⊢
              omega

theorem allLeaves_init : ∀ (freqs : List (Nat × Nat)),
    allLeaves (freqs.map (fun p => (HTree.leaf p.1, p.2))) =
      ((freqs.map Prod.fst : List Nat) : Multiset Nat) := by
  intro freqs
  induction freqs with
  | nil => rfl
  | cons p ps ih =>
    rw [List.map_cons, allLeaves_cons, ih, List.map_cons]
    show ((([p.1] : List Nat) : Multiset Nat) + _ = _)
    rw [Multiset.coe_add]
    rfl

theorem buildTree_some (freqs : List (Nat × Nat)) (h : freqs ≠ []) :
    ∃ t, buildTree freqs = some t ∧
      ((t.leaves : List Nat) : Multiset Nat) =
        ((freqs.map Prod.fst : List Nat) : Multiset Nat) := by
  have hlen : 1 ≤ (freqs.map (fun p => (HTree.leaf p.1, p.2))).length := by
    simp only [List.length_map]
    cases freqs with
    | nil => exact absurd rfl h
    | cons a t => simp
  obtain ⟨t, f, heq⟩ := mergeSteps_singleton freqs.length
    (freqs.map (fun p => (HTree.leaf p.1, p.2))) hlen (by simp)
  refine ⟨t, ?_, ?_⟩
  · unfold buildTree
    rw [heq]
  · have h1 := mergeSteps_allLeaves freqs.length (freqs.map (fun p => (HTree.leaf p.1, p.2)))
    rw [heq, allLeaves_init] at h1
    rw [← h1, allLeaves_cons]
    show _ = ((t.leaves : List Nat) : Multiset Nat) + 0
    rw [add_zero]

/-! ### Code table lemmas -/

theorem codes_fst : ∀ (t : HTree), (HTree.codes t).map Prod.fst = t.leaves := by
  intro t
  induction t with
  | leaf s => rfl
  | node l r ihl ihr =>
    show ((HTree.codes l).map (fun p => (p.1, false :: p.2)) ++
        (HTree.codes r).map (fun p => (p.1, true :: p.2))).map Prod.fst = l.leaves ++ r.leaves
    rw [List.map_append, List.map_map, List.map_map]
    rw [show (Prod.fst ∘ fun p : Nat × List Bool => (p.1, false :: p.2)) = Prod.fst from rfl]
    rw [show (Prod.fst ∘ fun p : Nat × List Bool => (p.1, true :: p.2)) = Prod.fst from rfl]
    rw [ihl, ihr]

theorem starts_cons_iff (b : Bool) (c1 c2 : List Bool) :
    starts (b :: c1) (b :: c2) ↔ starts c1 c2 := by
  constructor
  · rintro ⟨t, ht⟩
    injection ht with _ h2
    exact ⟨t, h2⟩
  · rintro ⟨t, ht⟩
    exact ⟨t, by rw [List.cons_append, ht]⟩

theorem not_starts_of_head {b1 b2 : Bool} (h : b1 ≠ b2) (c1 c2 : List Bool) :
    ¬ starts (b1 :: c1) (b2 :: c2) := by
  rintro ⟨t, ht⟩
  injection ht with h1 _
  exact h h1.symm

theorem codeFree_symm : ∀ {e1 e2 : Nat × List Bool}, codeFree e1 e2 → codeFree e2 e1 :=
  fun h => ⟨h.2, h.1⟩

theorem codes_pairwise : ∀ (t : HTree), (HTree.codes t).Pairwise codeFree := by
  intro t
  induction t with
  | leaf s => simp [HTree.codes]
  | node l r ihl ihr =>
    show (((HTree.codes l).map (fun p => (p.1, false :: p.2))) ++
        ((HTree.codes r).map (fun p => (p.1, true :: p.2)))).Pairwise codeFree
    apply List.pairwise_append.mpr
    refine ⟨?_, ?_, ?_⟩
    · rw [List.pairwise_map]
      refine List.Pairwise.imp ?_ ihl
      intro a b hab
      refine ⟨?_, ?_⟩
      · show ¬ starts (false :: a.2) (false :: b.2)
        rw [starts_cons_iff]
        exact hab.1
      · show ¬ starts (false :: b.2) (false :: a.2)
        rw [starts_cons_iff]
        exact hab.2
    · rw [List.pairwise_map]
      refine List.Pairwise.imp ?_ ihr
      intro a b hab
      refine ⟨?_, ?_⟩
      · show ¬ starts (true :: a.2) (true :: b.2)
        rw [starts_cons_iff]
        exact hab.1
      · show ¬ starts (true :: b.2) (true :: a.2)
        rw [starts_cons_iff]
        exact hab.2
    · intro a ha b hb
      obtain ⟨p, hp, hpe⟩ := List.mem_map.mp ha
      obtain ⟨q, hq, hqe⟩ := List.mem_map.mp hb
      subst hpe
      subst hqe
      exact ⟨not_starts_of_head (by simp) _ _, not_starts_of_head (by simp) _ _⟩

end LZ77

namespace LZ77

/-! ### Code table properties -/

theorem buildCodeTable_pairwise (freqs : List (Nat × Nat)) :
    (buildCodeTable freqs).Pairwise codeFree := by
  unfold buildCodeTable
  cases h : buildTree freqs with
  | none => simp
  | some t =>
    cases t with
    | leaf s => simp
    | node l r => exact codes_pairwise (HTree.node l r)

theorem buildCodeTable_fst (freqs : List (Nat × Nat)) :
    (((buildCodeTable freqs).map Prod.fst : List Nat) : Multiset Nat) =
      ((freqs.map Prod.fst : List Nat) : Multiset Nat) := by
  by_cases h : freqs = []
  · subst h
    rfl
  · obtain ⟨t, ht, hleaves⟩ := buildTree_some freqs h
    unfold buildCodeTable
    rw [ht]
    cases t with
    | leaf s =>
      dsimp only
      exact hleaves
    | node l r =>
      dsimp only
      rw [codes_fst]
      exact hleaves

theorem buildCodeTable_mem {freqs : List (Nat × Nat)} {s : Nat}
    (h : s ∈ freqs.map Prod.fst) : s ∈ (buildCodeTable freqs).map Prod.fst := by
  rw [← Multiset.mem_coe] at h ⊢
  rw [buildCodeTable_fst]
  exact h

theorem buildCodeTable_length (freqs : List (Nat × Nat)) :
    (buildCodeTable freqs).length = freqs.length := by
  have h := congrArg Multiset.card (buildCodeTable_fst freqs)
  simpa [Multiset.coe_card] using h

theorem freqTable_fst (xs : List Nat) : (freqTable xs).map Prod.fst = xs.dedup := by
  unfold freqTable
  rw [List.map_map]
  rw [show (Prod.fst ∘ fun s => (s, xs.count s)) = id from rfl, List.map_id]

theorem mem_freqTable {xs : List Nat} {s : Nat} (h : s ∈ xs) :
    s ∈ (freqTable xs).map Prod.fst := by
  rw [freqTable_fst]
  exact List.mem_dedup.mpr h

theorem lookupCode_mem : ∀ (table : List (Nat × List Bool)) (s : Nat),
    s ∈ table.map Prod.fst → (s, lookupCode table s) ∈ table := by
  intro table
  induction table with
  | nil => intro s h; simp at h
  | cons e rest ih =>
    intro s h
    by_cases he : e.1 = s
    · rw [lookupCode, if_pos he]
      subst he
      rw [Prod.mk.eta]
      exact List.mem_cons_self e rest
    · rw [lookupCode, if_neg he]
      have h2 : s ∈ rest.map Prod.fst := by
        rcases List.mem_map.mp h with ⟨p, hp, hps⟩
        rcases List.mem_cons.mp hp with rfl | hp2
        · exact absurd hps he
        · exact List.mem_map.mpr ⟨p, hp2, hps⟩
      exact List.mem_cons_of_mem e (ih s h2)

theorem starts_refl (c : List Bool) : starts c c := ⟨[], by simp⟩

theorem findByCode_some : ∀ (table : List (Nat × List Bool)) (s : Nat) (c : List Bool),
    table.Pairwise codeFree → (s, c) ∈ table → findByCode table c = some s := by
  intro table
  induction table with
  | nil => intro s c _ h; simp at h
  | cons e rest ih =>
    intro s c hpw hmem
    rw [findByCode]
    rcases List.mem_cons.mp hmem with heq | hmem2
    · rw [← heq]
      simp
    · by_cases hec : e.2 = c
      · exfalso
        have hfree : codeFree e (s, c) := (List.pairwise_cons.mp hpw).1 (s, c) hmem2
        exact hfree.1 (by rw [hec]; exact starts_refl c)
      · rw [if_neg hec]
        exact ih s c (List.pairwise_cons.mp hpw).2 hmem2

theorem findByCode_eq_none_of : ∀ (table : List (Nat × List Bool)) (acc : List Bool),
    (∀ e ∈ table, e.2 ≠ acc) → findByCode table acc = none := by
  intro table
  induction table with
  | nil => intro acc _; rfl
  | cons e rest ih =>
    intro acc h
    rw [findByCode, if_neg (h e (List.mem_cons_self e rest))]
    exact ih acc (fun e2 he2 => h e2 (List.mem_cons_of_mem e he2))

theorem no_code_eq_acc {table : List (Nat × List Bool)} {s : Nat} {c acc : List Bool}
    (hpw : table.Pairwise codeFree) (hmem : (s, c) ∈ table)
    (hst : starts acc c) (hne : acc ≠ c) :
    ∀ e ∈ table, e.2 ≠ acc := by
  intro e he heq
  by_cases hec : e = (s, c)
  · subst hec
    exact hne heq.symm
  · have hfree : codeFree e (s, c) :=
      (hpw.forall (fun _ _ h12 => codeFree_symm h12)) he hmem hec
    exact hfree.1 (by rw [heq]; exact hst)

theorem decodeSymbol_spec (table : List (Nat × List Bool)) (s : Nat) (c : List Bool)
    (hpw : table.Pairwise codeFree) (hmem : (s, c) ∈ table) :
    ∀ (suf rest acc : List Bool), c = acc ++ suf →
      decodeSymbol table acc (suf ++ rest) = some (s, rest) := by
  intro suf
  induction suf with
  | nil =>
    intro rest acc hacc
    rw [List.append_nil] at hacc
    subst hacc
    rw [List.nil_append]
    cases rest with
    | nil =>
      rw [decodeSymbol, findByCode_some table s c hpw hmem]
    | cons b r =>
      rw [decodeSymbol, findByCode_some table s c hpw hmem]
  | cons b suf ih =>
    intro rest acc hacc
    have hlen : c.length = acc.length + suf.length + 1 := by rw [hacc]; simp; omega
    have hne : acc ≠ c := by
      intro heq
      rw [heq] at hlen
      omega
    have hst : starts acc c := ⟨b :: suf, hacc⟩
    have hnone : findByCode table acc = none :=
      findByCode_eq_none_of table acc (no_code_eq_acc hpw hmem hst hne)
    rw [List.cons_append, decodeSymbol, hnone]
    show decodeSymbol table (acc ++ [b]) (suf ++ rest) = some (s, rest)
    exact ih rest (acc ++ [b]) (by rw [hacc, List.append_assoc]; rfl)

/-- C6: for every input, in each of the two Huffman code tables built by the
encoder (offset alphabet and length alphabet), no codeword is a prefix of
another codeword of the same table. -/
theorem C6_huffman_tables_codeFree (input : List Nat) :
    (offsetCodeTable input).Pairwise codeFree ∧
      (lengthCodeTable input).Pairwise codeFree :=
  ⟨buildCodeTable_pairwise _, buildCodeTable_pairwise _⟩

end LZ77

namespace LZ77

/-! ### Bitstream parsing lemmas -/

theorem readBits_exact (xs rest : List Bool) :
    readBits xs.length (xs ++ rest) = some (xs, rest) := by
  unfold readBits
  rw [if_pos (by simp)]
  rw [List.take_left, List.drop_left]

theorem readBits_natToBits (w v : Nat) (rest : List Bool) :
    readBits w (natToBits w v ++ rest) = some (natToBits w v, rest) := by
  have h := readBits_exact (natToBits w v) rest
  rw [natToBits_length] at h
  exact h

theorem decodeTriples_spec (offT lenT : List (Nat × List Bool))
    (hpwO : offT.Pairwise codeFree) (hpwL : lenT.Pairwise codeFree) :
    ∀ (ts : List triple_struct) (rest : List Bool),
      (∀ t ∈ ts, t.offset ∈ offT.map Prod.fst ∧ t.length ∈ lenT.map Prod.fst ∧
        t.codeword < 256) →
      decodeTriples offT lenT ts.length (contentBits offT lenT ts ++ rest) =
        some (ts, rest) := by
  intro ts
  induction ts with
  | nil => intro rest _; rfl
  | cons t ts ih =>
    intro rest hall
    obtain ⟨hoMem, hlMem, hcw⟩ := hall t (List.mem_cons_self t ts)
    have hoEntry := lookupCode_mem offT t.offset hoMem
    have hlEntry := lookupCode_mem lenT t.length hlMem
    have hdo := decodeSymbol_spec offT t.offset (lookupCode offT t.offset) hpwO hoEntry
      (lookupCode offT t.offset)
      (lookupCode lenT t.length ++ (natToBits 8 t.codeword ++ (contentBits offT lenT ts ++ rest)))
      [] (by simp)
    have hdl := decodeSymbol_spec lenT t.length (lookupCode lenT t.length) hpwL hlEntry
      (lookupCode lenT t.length)
      (natToBits 8 t.codeword ++ (contentBits offT lenT ts ++ rest)) [] (by simp)
    have hrb := readBits_natToBits 8 t.codeword (contentBits offT lenT ts ++ rest)
    have hrec := ih rest (fun t2 ht2 => hall t2 (List.mem_cons_of_mem t ht2))
    show decodeTriples offT lenT (ts.length + 1)
        (contentBits offT lenT (t :: ts) ++ rest) = some (t :: ts, rest)
    have hbits : contentBits offT lenT (t :: ts) ++ rest =
        lookupCode offT t.offset ++ (lookupCode lenT t.length ++
          (natToBits 8 t.codeword ++ (contentBits offT lenT ts ++ rest))) := by
      simp only [contentBits, List.map_cons, List.flatten_cons, encodeTripleBits,
        List.append_assoc]
    rw [hbits, decodeTriples, hdo]
    show (Option.bind (decodeSymbol lenT [] _) _) = _
    rw [hdl]
    show (Option.bind (readBits 8 _) _) = _
    rw [hrb]
    show (Option.bind (decodeTriples offT lenT ts.length _) _) = _
    rw [hrec]
    show some (⟨t.offset, t.length, BinStringToInt (natToBits 8 t.codeword)⟩ :: ts, rest) =
      some (t :: ts, rest)
    rw [BinStringToInt_natToBits hcw]

theorem parseEntries_spec : ∀ (table : List (Nat × List Bool)) (rest : List Bool),
    (∀ e ∈ table, e.1 < 2 ^ 16 ∧ e.2.length < 2 ^ 16) →
    parseEntries table.length ((table.map serializeEntry).flatten ++ rest) =
      some (table, rest) := by
  intro table
  induction table with
  | nil => intro rest _; rfl
  | cons e table ih =>
    intro rest hb
    obtain ⟨h1, h2⟩ := hb e (List.mem_cons_self e table)
    have hrec := ih rest (fun e2 he2 => hb e2 (List.mem_cons_of_mem e he2))
    show parseEntries (table.length + 1)
        (((e :: table).map serializeEntry).flatten ++ rest) = some (e :: table, rest)
    have hbits : ((e :: table).map serializeEntry).flatten ++ rest =
        natToBits 16 e.1 ++ (natToBits 16 e.2.length ++
          (e.2 ++ ((table.map serializeEntry).flatten ++ rest))) := by
      simp only [List.map_cons, List.flatten_cons, serializeEntry, List.append_assoc]
    rw [hbits, parseEntries]
    simp only [Option.bind_eq_bind, Option.some_bind, readBits_natToBits,
      BinStringToInt_natToBits h1, BinStringToInt_natToBits h2, readBits_exact, hrec,
      Prod.mk.eta]

theorem parseTable_spec (table : List (Nat × List Bool)) (rest : List Bool)
    (hlen : table.length < 2 ^ 16)
    (hb : ∀ e ∈ table, e.1 < 2 ^ 16 ∧ e.2.length < 2 ^ 16) :
    parseTable (serializeTable table ++ rest) = some (table, rest) := by
  unfold parseTable serializeTable
  rw [List.append_assoc, readBits_natToBits]
  show (Option.bind (some (natToBits 16 table.length, _)) _) = _
  rw [Option.some_bind]
  show parseEntries (BinStringToInt (natToBits 16 table.length)) _ = _
  rw [BinStringToInt_natToBits hlen]
  exact parseEntries_spec table rest hb

end LZ77

namespace LZ77

/-! ### Size bounds feeding the header fields -/

theorem dedup_length_le (l : List Nat) (B : Nat) (h : ∀ x ∈ l, x ≤ B) :
    l.dedup.length ≤ B + 1 := by
  have hnd : l.dedup.Nodup := List.nodup_dedup l
  have hsub : l.dedup.toFinset ⊆ Finset.range (B + 1) := by
    intro x hx
    rw [List.mem_toFinset] at hx
    have hxB := h x (List.mem_dedup.mp hx)
    rw [Finset.mem_range]
    omega
  have hcard := Finset.card_le_card hsub
  rw [Finset.card_range, List.toFinset_card_of_nodup hnd] at hcard
  exact hcard

theorem Encode_mem_bounds (input : List Nat) (hbytes : ∀ b ∈ input, b < 256) :
    ∀ t ∈ Encode input, t.offset ≤ 2048 ∧ t.length ≤ 255 ∧ t.codeword < 256 := by
  intro t ht
  obtain ⟨⟨p, t'⟩, hmem, rfl⟩ := List.mem_map.mp ht
  obtain ⟨-, hp, htt⟩ := EncodeFrom_mem input input.length 0 p t' hmem
  subst htt
  dsimp only
  refine ⟨?_, ?_, ?_⟩
  · by_cases hm : (MatchPattern input p).2 = 0
    · rw [MatchPattern_zero input p hm]
      simp
    · have hoff := MatchPattern_off input p (by omega)
      have h1 := hoff.2.1
      simp only [search_buffer_size_] at h1
      omega
  · have h1 := MatchPattern_len_le input p
    simp only [look_ahead_buffer_size_] at h1
    omega
  · have hlt := MatchPattern_end_lt input p hp
    exact hbytes _ (getD_mem input _ hlt 0)

theorem leaves_length_pos : ∀ (t : HTree), 1 ≤ t.leaves.length := by
  intro t
  induction t with
  | leaf s => simp [HTree.leaves]
  | node l r ihl ihr =>
    simp only [HTree.leaves, List.length_append]
    omega

theorem codes_length_le : ∀ (t : HTree) (e : Nat × List Bool), e ∈ HTree.codes t →
    e.2.length + 1 ≤ t.leaves.length := by
  intro t
  induction t with
  | leaf s =>
    intro e he
    simp only [HTree.codes, List.mem_singleton] at he
    subst he
    simp [HTree.leaves]
  | node l r ihl ihr =>
    intro e he
    have hposl := leaves_length_pos l
    have hposr := leaves_length_pos r
    rcases List.mem_append.mp he with hl | hr
    · obtain ⟨p, hp, rfl⟩ := List.mem_map.mp hl
      have h1 := ihl p hp
      simp only [HTree.leaves, List.length_append, List.length_cons]
      omega
    · obtain ⟨p, hp, rfl⟩ := List.mem_map.mp hr
      have h1 := ihr p hp
      simp only [HTree.leaves, List.length_append, List.length_cons]
      omega

theorem buildTree_nil : buildTree ([] : List (Nat × Nat)) = none := rfl

theorem buildCodeTable_code_length (freqs : List (Nat × Nat)) :
    ∀ e ∈ buildCodeTable freqs, e.2.length ≤ freqs.length := by
  intro e he
  by_cases hnil : freqs = []
  · subst hnil
    simp [buildCodeTable, buildTree_nil] at he
  · obtain ⟨t, ht, hmult⟩ := buildTree_some freqs hnil
    have hlenEq : t.leaves.length = freqs.length := by
      have hcard := congrArg Multiset.card hmult
      simpa [Multiset.coe_card] using hcard
    unfold buildCodeTable at he
    rw [ht] at he
    cases t with
    | leaf s =>
      simp only [List.mem_singleton] at he
      subst he
      simp only [HTree.leaves, List.length_cons, List.length_nil] at hlenEq
      simp
      omega
    | node l r =>
      dsimp only at he
      have h2 := codes_length_le (HTree.node l r) e he
      omega

theorem buildCodeTable_fst_mem {freqs : List (Nat × Nat)} :
    ∀ e ∈ buildCodeTable freqs, e.1 ∈ freqs.map Prod.fst := by
  intro e he
  have h1 : e.1 ∈ (buildCodeTable freqs).map Prod.fst := List.mem_map.mpr ⟨e, he, rfl⟩
  rw [← Multiset.mem_coe, buildCodeTable_fst, Multiset.mem_coe] at h1
  exact h1

theorem freqTable_length (xs : List Nat) : (freqTable xs).length = xs.dedup.length := by
  simp [freqTable]

end LZ77

namespace LZ77

/-! ### Full pipeline round trip -/

theorem DecompressFromFile_spec (offT lenT : List (Nat × List Bool))
    (ts : List triple_struct) (pad : List Bool)
    (hn : ts.length < 2 ^ 32)
    (hoLen : offT.length < 2 ^ 16) (hlLen : lenT.length < 2 ^ 16)
    (hoB : ∀ e ∈ offT, e.1 < 2 ^ 16 ∧ e.2.length < 2 ^ 16)
    (hlB : ∀ e ∈ lenT, e.1 < 2 ^ 16 ∧ e.2.length < 2 ^ 16)
    (hpwO : offT.Pairwise codeFree) (hpwL : lenT.Pairwise codeFree)
    (hts : ∀ t ∈ ts, t.offset ∈ offT.map Prod.fst ∧ t.length ∈ lenT.map Prod.fst ∧
      t.codeword < 256) :
    DecompressFromFile (natToBits 32 ts.length ++ (serializeTable offT ++
      (serializeTable lenT ++ (contentBits offT lenT ts ++ pad)))) =
      some (DecompressLZ77Code ts) := by
  have hpo := parseTable_spec offT
    (serializeTable lenT ++ (contentBits offT lenT ts ++ pad)) hoLen hoB
  have hpl := parseTable_spec lenT (contentBits offT lenT ts ++ pad) hlLen hlB
  have hdt := decodeTriples_spec offT lenT hpwO hpwL ts pad hts
  unfold DecompressFromFile
  simp only [readBits_natToBits, Option.bind_eq_bind, Option.some_bind,
    BinStringToInt_natToBits hn, hpo, hpl, hdt]

/-- C1: decoding the artifact produced by compressing any byte sequence
yields exactly that byte sequence: decompress (compress b) = b. -/
theorem C1_round_trip (input : List Nat) (hbytes : ∀ b ∈ input, b < 256)
    (hlen : input.length < 2 ^ 32) :
    DecompressFromFile (CompressToFile input) = some input := by
  have hbounds := Encode_mem_bounds input hbytes
  have hoffsets : ∀ x ∈ (Encode input).map triple_struct.offset, x ≤ 2048 := by
    intro x hx
    obtain ⟨t, ht, rfl⟩ := List.mem_map.mp hx
    exact (hbounds t ht).1
  have hlengths : ∀ x ∈ (Encode input).map triple_struct.length, x ≤ 255 := by
    intro x hx
    obtain ⟨t, ht, rfl⟩ := List.mem_map.mp hx
    exact (hbounds t ht).2.1
  have hfo_len : (freqTable ((Encode input).map triple_struct.offset)).length ≤ 2049 := by
    rw [freqTable_length]
    exact dedup_length_le _ 2048 hoffsets
  have hfl_len : (freqTable ((Encode input).map triple_struct.length)).length ≤ 256 := by
    rw [freqTable_length]
    exact dedup_length_le _ 255 hlengths
  have hoLen : (offsetCodeTable input).length < 2 ^ 16 := by
    simp only [offsetCodeTable, buildCodeTable_length]
    omega
  have hlLen : (lengthCodeTable input).length < 2 ^ 16 := by
    simp only [lengthCodeTable, buildCodeTable_length]
    omega
  have hoB : ∀ e ∈ offsetCodeTable input, e.1 < 2 ^ 16 ∧ e.2.length < 2 ^ 16 := by
    intro e he
    simp only [offsetCodeTable] at he
    constructor
    · have h1 := buildCodeTable_fst_mem e he
      rw [freqTable_fst] at h1
      have h2 := hoffsets e.1 (List.mem_dedup.mp h1)
      omega
    · have h1 := buildCodeTable_code_length _ e he
      omega
  have hlB : ∀ e ∈ lengthCodeTable input, e.1 < 2 ^ 16 ∧ e.2.length < 2 ^ 16 := by
    intro e he
    simp only [lengthCodeTable] at he
    constructor
    · have h1 := buildCodeTable_fst_mem e he
      rw [freqTable_fst] at h1
      have h2 := hlengths e.1 (List.mem_dedup.mp h1)
      omega
    · have h1 := buildCodeTable_code_length _ e he
      omega
  have htsMem : ∀ t ∈ Encode input,
      t.offset ∈ (offsetCodeTable input).map Prod.fst ∧
        t.length ∈ (lengthCodeTable input).map Prod.fst ∧ t.codeword < 256 := by
    intro t ht
    refine ⟨?_, ?_, (hbounds t ht).2.2⟩
    · simp only [offsetCodeTable]
      exact buildCodeTable_mem (mem_freqTable (List.mem_map.mpr ⟨t, ht, rfl⟩))
    · simp only [lengthCodeTable]
      exact buildCodeTable_mem (mem_freqTable (List.mem_map.mpr ⟨t, ht, rfl⟩))
  obtain ⟨pad, hshape⟩ : ∃ pad, CompressToFile input =
      natToBits 32 (Encode input).length ++ (serializeTable (offsetCodeTable input) ++
        (serializeTable (lengthCodeTable input) ++
          (contentBits (offsetCodeTable input) (lengthCodeTable input) (Encode input) ++
            pad))) := by
    refine ⟨List.replicate ((8 - (natToBits 32 (Encode input).length ++
        serializeTable (offsetCodeTable input) ++ serializeTable (lengthCodeTable input) ++
        contentBits (offsetCodeTable input) (lengthCodeTable input)
          (Encode input)).length % 8) % 8) false, ?_⟩
    unfold CompressToFile
    simp only [List.append_assoc]
  rw [hshape]
  rw [DecompressFromFile_spec (offsetCodeTable input) (lengthCodeTable input)
    (Encode input) pad (lt_of_le_of_lt (Encode_length_le input) hlen) hoLen hlLen hoB hlB
    (buildCodeTable_pairwise _) (buildCodeTable_pairwise _) htsMem]
  rw [lz77_roundtrip]

theorem C1_witness :
    (∀ b ∈ ([97, 97, 98] : List Nat), b < 256) ∧
      ([97, 97, 98] : List Nat).length < 2 ^ 32 ∧
      DecompressFromFile (CompressToFile [97, 97, 98]) = some [97, 97, 98] :=
  ⟨by decide, by decide, C1_round_trip [97, 97, 98] (by decide) (by decide)⟩

/-- C7: compression is deterministic: equal inputs produce byte-identical
compressed output. -/
theorem C7_deterministic (b1 b2 : List Nat) (h : b1 = b2) :
    CompressToFile b1 = CompressToFile b2 :=
  congrArg CompressToFile h

theorem C7_witness :
    ([97, 98] : List Nat) = [97, 98] ∧
      CompressToFile [97, 98] = CompressToFile [97, 98] :=
  ⟨rfl, C7_deterministic [97, 98] [97, 98] rfl⟩

end LZ77
